import Mathlib

/-!
Shallow embedding of the asset_keeper storage core
(`src/data.rs`, `src/stores/{file_store,asset_store,image_store,traits}.rs`).

Paths are modelled as UTF-8 strings; the relevant fragment of Rust's
`std::path` (`Path::file_name`, `Path::extension`, `PathBuf::join`) is
embedded over the underlying character lists.  The two `HashMap`-backed
stores are modelled as association lists whose insert/remove operations
mirror `HashMap::insert` / `HashMap::remove`; the `u32` id counters are
modelled as `Nat` (the repository's checked builds abort on `id.0 + 1`
overflow rather than wrap, so an allocation never returns a wrapped id).
The filesystem copy performed by `Data::add_asset_from_disk` is abstracted
as a function argument covering both outcomes of `std::fs::copy`.
-/

set_option linter.unusedVariables false

namespace AssetKeeper

/-! ## Rust `std::path` fragment -/

/-- Split a character list at every `/`, keeping empty segments, as Rust's
path parsing does before discarding empty and `.` components. -/
def splitSlash : List Char → List (List Char)
  | [] => [[]]
  | c :: rest =>
    match splitSlash rest with
    | [] => [[]]
    | cur :: done => if c = '/' then [] :: cur :: done else (c :: cur) :: done

/-- Rust `Path::file_name`: the last normal component of the path.  Empty
and `.` components are skipped; a path whose last component is `..`
(or that has no normal component at all) has no file name. -/
def fileNameChars (p : String) : Option (List Char) :=
  let comps := (splitSlash p.toList).filter fun c => decide (c ≠ [] ∧ c ≠ ['.'])
  match comps.getLast? with
  | none => none
  | some c => if c = ['.', '.'] then none else some c

/-- Split a file name at its last `.`, returning the text before and after
it; `none` when the name contains no dot. -/
def splitAtLastDot : List Char → Option (List Char × List Char)
  | [] => none
  | c :: rest =>
    match splitAtLastDot rest with
    | some (before, after) => some (c :: before, after)
    | none => if c = '.' then some ([], rest) else none

/-- Rust `rsplit_file_at_dot` / `Path::extension` applied to a file name:
the portion after the last dot, unless the name is `..` or the portion
before the last dot is empty (dotfiles such as `.png` have no extension). -/
def extensionOf (file : List Char) : Option (List Char) :=
  if file = ['.', '.'] then none
  else
    match splitAtLastDot file with
    | none => none
    | some ([], _) => none
    | some (_ :: _, after) => some after

/-- Rust `Path::extension` on a whole path. -/
def rustExtension (p : String) : Option String :=
  ((fileNameChars p).bind extensionOf).map String.mk

/-- Rust `PathBuf::join` with a relative right-hand side, as used by
`Data::add_asset_from_disk` (`self.files_dir.join(dest)`). -/
def pathJoin (dir name : String) : String :=
  if dir = "" then name
  else if dir.toList.getLast? = some '/' then dir ++ name
  else dir ++ "/" ++ name

/-! ## Extension policy (`KnownExtension`, file_store.rs) -/

/-- File extensions that the program knows how to deal with. -/
inductive KnownExtension where
  | png
deriving DecidableEq, Repr

/-- Rust `str::to_ascii_lowercase`: `Char.toLower` lowers exactly the ASCII
uppercase letters, which is the same per-character mapping. -/
def toAsciiLowercase (s : String) : String :=
  String.mk (s.toList.map Char.toLower)

/-- Rust `KnownExtension::from_str`: classify an extension string (without the
dot), case-insensitively, against the fixed allow-list. -/
def KnownExtension.from_str (s : String) : Option KnownExtension :=
  if toAsciiLowercase s = "png" then some KnownExtension.png else none

/-- Rust `KnownExtension::from_path`: classify a path's extension; a missing
extension is treated as the empty string
(`path.extension().unwrap_or_default().to_str().unwrap_or("")`). -/
def KnownExtension.from_path (p : String) : Option KnownExtension :=
  KnownExtension.from_str ((rustExtension p).getD "")

/-- Rust `KnownExtension::to_str`. -/
def KnownExtension.to_str : KnownExtension → String
  | .png => "png"


/-! ## Association-list model of `std::collections::HashMap` -/

/-- Rust `HashMap::get`: the value stored under `k`, if any. -/
def mapGet {α : Type} : List (Nat × α) → Nat → Option α
  | [], _ => none
  | (k', v) :: rest, k => if k' = k then some v else mapGet rest k

/-- Rust `HashMap::insert`: replace the value under `k` when present, otherwise
add the new entry. -/
def mapInsert {α : Type} : List (Nat × α) → Nat → α → List (Nat × α)
  | [], k, v => [(k, v)]
  | (k', v') :: rest, k, v =>
    if k' = k then (k, v) :: rest else (k', v') :: mapInsert rest k v

/-- Rust `HashMap::remove`: delete the entry under `k` (the stores keep keys
unique) and return the removed value, if any. -/
def mapRemove {α : Type} : List (Nat × α) → Nat → List (Nat × α) × Option α
  | [], _ => ([], none)
  | (k', v) :: rest, k =>
    if k' = k then (rest, some v)
    else ((k', v) :: (mapRemove rest k).1, (mapRemove rest k).2)

/-! ## System tags and `File` records (file_store.rs) -/

inductive SystemTag where
  | transparent
deriving DecidableEq, Repr

structure File where
  id : Nat
  title : String
  extension : KnownExtension
  system_tags : List SystemTag
deriving DecidableEq, Repr

/-- Rust `File::file_name`:
`PathBuf::new().with_file_name(self.id.to_string()).with_extension(self.extension.to_str())`.
The decimal id contains no dot or separator, so this builds
`"<decimal-id>.<ext>"`. -/
def File.file_name (f : File) : String :=
  Nat.repr f.id ++ "." ++ f.extension.to_str

/-! ## `FileStore` -/

structure FileStore where
  files : List (Nat × File)
  next_id : Nat
deriving DecidableEq, Repr

/-- Rust `FileStore::new`. -/
def FileStore.new : FileStore :=
  { files := [], next_id := 0 }

/-- Rust `FileStore::new_file`: allocate the next id, build the record with an
empty tag set, insert it, bump the counter, and return the id together
with the storage file name. -/
def FileStore.new_file (s : FileStore) (title : String) (extension : KnownExtension) :
    (Nat × String) × FileStore :=
  let id := s.next_id
  let f : File := { id := id, title := title, extension := extension, system_tags := [] }
  let file_name := f.file_name
  ((id, file_name), { files := mapInsert s.files id f, next_id := id + 1 })

/-- Rust `IndexedStore::get` for `FileStore`. -/
def FileStore.get (s : FileStore) (id : Nat) : Option File :=
  mapGet s.files id

/-- Rust `IndexedStore::count` for `FileStore`. -/
def FileStore.count (s : FileStore) : Nat :=
  s.files.length

/-- Rust `IndexedStore::remove` for `FileStore`. -/
def FileStore.remove (s : FileStore) (id : Nat) : FileStore × Option File :=
  ({ files := (mapRemove s.files id).1, next_id := s.next_id }, (mapRemove s.files id).2)

/-! ## `Asset` records and `AssetStore` (asset_store.rs) -/

structure Asset where
  title : String
  file : Nat
deriving DecidableEq, Repr

structure AssetStore where
  assets : List (Nat × Asset)
  next_id : Nat
deriving DecidableEq, Repr

/-- Rust `AssetStore::new`. -/
def AssetStore.new : AssetStore :=
  { assets := [], next_id := 0 }

/-- Rust `AssetStore::new_asset`: allocate the next id, store the record
unconditionally, bump the counter, and return the id. -/
def AssetStore.new_asset (s : AssetStore) (title : String) (file : Nat) :
    Nat × AssetStore :=
  let id := s.next_id
  let a : Asset := { title := title, file := file }
  (id, { assets := mapInsert s.assets id a, next_id := id + 1 })

/-- Rust `IndexedStore::get` for `AssetStore`. -/
def AssetStore.get (s : AssetStore) (id : Nat) : Option Asset :=
  mapGet s.assets id

/-- Rust `IndexedStore::count` for `AssetStore`. -/
def AssetStore.count (s : AssetStore) : Nat :=
  s.assets.length

/-- Rust `IndexedStore::remove` for `AssetStore`. -/
def AssetStore.remove (s : AssetStore) (id : Nat) : AssetStore × Option Asset :=
  ({ assets := (mapRemove s.assets id).1, next_id := s.next_id }, (mapRemove s.assets id).2)

/-! ## `Data` and the import coordinator (data.rs) -/

structure Data where
  save_dir : String
  files_dir : String
  assets : AssetStore
  files : FileStore
deriving DecidableEq, Repr

/-- Rust `Data::new` after the two `create_dir_all` calls have succeeded.  The
source initializes BOTH path fields from `save_dir`
(`files_dir: PathBuf::from(save_dir)` in data.rs), so the `files_dir`
argument is dropped; the embedding reproduces this faithfully. -/
def Data.new (save_dir files_dir : String) : Data :=
  { save_dir := save_dir
    files_dir := save_dir
    assets := AssetStore.new
    files := FileStore.new }

/-- The errors `Data::add_asset_from_disk` can surface: an unknown
extension (`"Extension is not known."`), or a failed copy carrying the
underlying I/O cause. -/
inductive AddError where
  | unsupportedExtension
  | copyFailed (cause : String)
deriving DecidableEq, Repr

/-- Rust `Data::add_asset_from_disk`, with `std::fs::copy` abstracted as the
argument `copy : source → destination → Except cause Unit` so both of its
outcomes are covered.  Returns the Rust result paired with the updated
state. -/
def Data.add_asset_from_disk (d : Data) (title : String) (file : String)
    (copy : String → String → Except String Unit) : Except AddError Nat × Data :=
  match KnownExtension.from_path file with
  | none => (Except.error AddError.unsupportedExtension, d)
  | some extension =>
    let file_id := (d.files.new_file title extension).1.1
    let dest := (d.files.new_file title extension).1.2
    let files' := (d.files.new_file title extension).2
    let full_dest := pathJoin d.files_dir dest
    match copy file full_dest with
    | Except.error e =>
      (Except.error (AddError.copyFailed e), { d with files := (files'.remove file_id).1 })
    | Except.ok _ =>
      (Except.ok (d.assets.new_asset title file_id).1,
        { d with files := files', assets := (d.assets.new_asset title file_id).2 })

/-- Rust `Data::asset_count`. -/
def Data.asset_count (d : Data) : Nat :=
  d.assets.count

/-- Rust `Data::get_asset`. -/
def Data.get_asset (d : Data) (id : Nat) : Option Asset :=
  d.assets.get id

/-! ## Store well-formedness

Both stores maintain unique keys, all of them below the `next_id`
counter: this holds for the freshly constructed store and is preserved by
every operation, so it holds for every store state the API can build. -/

def FileStore.Wf (s : FileStore) : Prop :=
  (s.files.map Prod.fst).Nodup ∧ ∀ kv ∈ s.files, kv.1 < s.next_id

instance (s : FileStore) : Decidable s.Wf := by
  unfold FileStore.Wf; infer_instance

def AssetStore.Wf (s : AssetStore) : Prop :=
  (s.assets.map Prod.fst).Nodup ∧ ∀ kv ∈ s.assets, kv.1 < s.next_id

instance (s : AssetStore) : Decidable s.Wf := by
  unfold AssetStore.Wf; infer_instance

/-! ## `ImageStore` (image_store.rs) -/

structure Image where
  path : String
deriving DecidableEq, Repr

structure ImageStore where
  files : List (Nat × Image)
  next_id : Nat
deriving DecidableEq, Repr

/-- Rust `IMAGE_EXTENSIONS`: extensions recognized as images. -/
def IMAGE_EXTENSIONS : List String := ["png"]

/-- Rust `ImageStore::new`. -/
def ImageStore.new : ImageStore :=
  { files := [], next_id := 0 }

/-- Rust `ImageStore::path_has_image_extension`: the path's extension,
lower-cased, must be in `IMAGE_EXTENSIONS`.  The source uses the Unicode
`str::to_lowercase`; it agrees with the ASCII lowering modelled here on
every string whose lowercase form is `"png"`, because only ASCII letters
lower-case to ASCII letters. -/
def ImageStore.path_has_image_extension (path : String) : Bool :=
  match rustExtension path with
  | some ext => IMAGE_EXTENSIONS.contains (toAsciiLowercase ext)
  | none => false

/-- Rust `ImageStore::new_image`: reject paths whose extension is not a
recognized image extension before touching any state; otherwise allocate
the next id and insert the record. -/
def ImageStore.new_image (s : ImageStore) (path : String) : Option Nat × ImageStore :=
  if !ImageStore.path_has_image_extension path then (none, s)
  else
    let id := s.next_id
    let new_image : Image := { path := path }
    (some id, { files := mapInsert s.files id new_image, next_id := id + 1 })

/-- Rust `IndexedStore::get` for `ImageStore`. -/
def ImageStore.get (s : ImageStore) (id : Nat) : Option Image :=
  mapGet s.files id

/-- Rust `IndexedStore::count` for `ImageStore`. -/
def ImageStore.count (s : ImageStore) : Nat :=
  s.files.length

/-! ## Usage traces -/

/-- One `FileStore` operation in a usage trace. -/
inductive FileOp where
  | new_file (title : String) (extension : KnownExtension)
  | remove (id : Nat)

/-- One `AssetStore` operation in a usage trace. -/
inductive AssetOp where
  | new_asset (title : String) (file : Nat)
  | remove (id : Nat)

/-- Run a trace of `FileStore` operations, collecting every identifier
`new_file` returned along the way. -/
def FileStore.runOps : FileStore → List FileOp → FileStore × List Nat
  | s, [] => (s, [])
  | s, FileOp.new_file title ext :: rest =>
    ((((s.new_file title ext).2).runOps rest).1,
      (s.new_file title ext).1.1 :: (((s.new_file title ext).2).runOps rest).2)
  | s, FileOp.remove id :: rest => ((s.remove id).1).runOps rest

/-- Run a trace of `AssetStore` operations, collecting every identifier
`new_asset` returned along the way. -/
def AssetStore.runOps : AssetStore → List AssetOp → AssetStore × List Nat
  | s, [] => (s, [])
  | s, AssetOp.new_asset title file :: rest =>
    ((((s.new_asset title file).2).runOps rest).1,
      (s.new_asset title file).1 :: (((s.new_asset title file).2).runOps rest).2)
  | s, AssetOp.remove id :: rest => ((s.remove id).1).runOps rest

/-- One `new_file` call per list entry. -/
def FileStore.addAll (s : FileStore) : List (String × KnownExtension) → FileStore
  | [] => s
  | (title, ext) :: rest => ((s.new_file title ext).2).addAll rest

/-- One `new_asset` call per list entry. -/
def AssetStore.addAll (s : AssetStore) : List (String × Nat) → AssetStore
  | [] => s
  | (title, file) :: rest => ((s.new_asset title file).2).addAll rest

/-! ## Shared lemmas about the map model -/

theorem mapGet_eq_none_of_lt {α : Type} {m : List (Nat × α)} {n : Nat}
    (h : ∀ kv ∈ m, kv.1 < n) : mapGet m n = none := by
  induction m with
  | nil => rfl
  | cons kv rest ih =>
    obtain ⟨k', v⟩ := kv
    have hk : k' < n := h (k', v) (List.mem_cons_self _ _)
    simp only [mapGet, if_neg (Nat.ne_of_lt hk)]
    exact ih fun kv hkv => h kv (List.mem_cons_of_mem _ hkv)

theorem mapGet_eq_none_of_not_mem {α : Type} {m : List (Nat × α)} {k : Nat}
    (h : k ∉ m.map Prod.fst) : mapGet m k = none := by
  induction m with
  | nil => rfl
  | cons kv rest ih =>
    obtain ⟨k', v⟩ := kv
    simp only [List.map_cons, List.mem_cons, not_or] at h
    have hk : k' ≠ k := fun hkk => h.1 hkk.symm
    simp only [mapGet, if_neg hk]
    exact ih h.2

theorem mapGet_mapInsert_self {α : Type} (m : List (Nat × α)) (k : Nat) (v : α) :
    mapGet (mapInsert m k v) k = some v := by
  induction m with
  | nil => simp [mapInsert, mapGet]
  | cons kv rest ih =>
    obtain ⟨k', v'⟩ := kv
    by_cases hk : k' = k
    · simp [mapInsert, hk, mapGet]
    · simp [mapInsert, hk, mapGet, ih]

theorem mapInsert_eq_append {α : Type} {m : List (Nat × α)} {k : Nat} (v : α)
    (h : mapGet m k = none) : mapInsert m k v = m ++ [(k, v)] := by
  induction m with
  | nil => rfl
  | cons kv rest ih =>
    obtain ⟨k', v'⟩ := kv
    simp only [mapGet] at h
    by_cases hk : k' = k
    · rw [if_pos hk] at h; exact absurd h (by simp)
    · rw [if_neg hk] at h
      simp only [mapInsert, if_neg hk, List.cons_append, List.cons.injEq, true_and]
      exact ih h

theorem mapRemove_append {α : Type} {m : List (Nat × α)} {k : Nat} {v : α}
    (h : mapGet m k = none) : mapRemove (m ++ [(k, v)]) k = (m, some v) := by
  induction m with
  | nil => simp [mapRemove]
  | cons kv rest ih =>
    obtain ⟨k', v'⟩ := kv
    simp only [mapGet] at h
    by_cases hk : k' = k
    · rw [if_pos hk] at h; exact absurd h (by simp)
    · rw [if_neg hk] at h
      simp [mapRemove, hk, ih h]

theorem mapRemove_length_of_mem {α : Type} {m : List (Nat × α)} {k : Nat} {v : α}
    (h : mapGet m k = some v) : ((mapRemove m k).1).length + 1 = m.length := by
  induction m with
  | nil => simp [mapGet] at h
  | cons kv rest ih =>
    obtain ⟨k', v'⟩ := kv
    simp only [mapGet] at h
    by_cases hk : k' = k
    · simp [mapRemove, hk]
    · rw [if_neg hk] at h
      simp only [mapRemove, if_neg hk]
      simp only [List.length_cons, ih h]

theorem mapGet_mapRemove_self {α : Type} {m : List (Nat × α)} (k : Nat)
    (hnd : (m.map Prod.fst).Nodup) : mapGet (mapRemove m k).1 k = none := by
  induction m with
  | nil => rfl
  | cons kv rest ih =>
    obtain ⟨k', v'⟩ := kv
    simp only [List.map_cons, List.nodup_cons] at hnd
    by_cases hk : k' = k
    · subst hk
      simp only [mapRemove, if_pos rfl]
      exact mapGet_eq_none_of_not_mem hnd.1
    · simp only [mapRemove, if_neg hk, mapGet]
      exact ih hnd.2

theorem mapRemove_fst_sublist {α : Type} (m : List (Nat × α)) (k : Nat) :
    ((mapRemove m k).1).Sublist m := by
  induction m with
  | nil => simp [mapRemove]
  | cons kv rest ih =>
    obtain ⟨k', v'⟩ := kv
    by_cases hk : k' = k
    · simp only [mapRemove, if_pos hk]
      exact List.sublist_cons_self _ _
    · simp only [mapRemove, if_neg hk]
      exact ih.cons₂ _

theorem fileStore_wf_new : FileStore.new.Wf := by
  constructor <;> simp [FileStore.new]

theorem fileStore_get_next_id_eq_none {s : FileStore} (h : s.Wf) :
    s.get s.next_id = none :=
  mapGet_eq_none_of_lt h.2

theorem fileStore_wf_new_file {s : FileStore} (h : s.Wf)
    (title : String) (extension : KnownExtension) :
    ((s.new_file title extension).2).Wf := by
  have hget : mapGet s.files s.next_id = none := mapGet_eq_none_of_lt h.2
  constructor
  · simp only [FileStore.new_file, mapInsert_eq_append _ hget, List.map_append,
      List.map_cons, List.map_nil]
    rw [List.nodup_append]
    refine ⟨h.1, List.nodup_singleton _, ?_⟩
    intro a ha hb
    simp only [List.mem_singleton] at hb
    subst hb
    simp only [List.mem_map] at ha
    obtain ⟨kv, hkv, hfst⟩ := ha
    exact absurd hfst (Nat.ne_of_lt (h.2 kv hkv))
  · intro kv hkv
    simp only [FileStore.new_file, mapInsert_eq_append _ hget, List.mem_append,
      List.mem_singleton] at hkv
    rcases hkv with hkv | rfl
    · exact Nat.lt_succ_of_lt (h.2 kv hkv)
    · exact Nat.lt_succ_self _

theorem fileStore_wf_remove {s : FileStore} (h : s.Wf) (id : Nat) :
    ((s.remove id).1).Wf := by
  constructor
  · exact h.1.sublist (List.Sublist.map _ (mapRemove_fst_sublist s.files id))
  · intro kv hkv
    exact h.2 kv ((mapRemove_fst_sublist s.files id).mem hkv)

theorem assetStore_wf_new : AssetStore.new.Wf := by
  constructor <;> simp [AssetStore.new]

theorem assetStore_get_next_id_eq_none {s : AssetStore} (h : s.Wf) :
    s.get s.next_id = none :=
  mapGet_eq_none_of_lt h.2

theorem assetStore_wf_new_asset {s : AssetStore} (h : s.Wf)
    (title : String) (file : Nat) :
    ((s.new_asset title file).2).Wf := by
  have hget : mapGet s.assets s.next_id = none := mapGet_eq_none_of_lt h.2
  constructor
  · simp only [AssetStore.new_asset, mapInsert_eq_append _ hget, List.map_append,
      List.map_cons, List.map_nil]
    rw [List.nodup_append]
    refine ⟨h.1, List.nodup_singleton _, ?_⟩
    intro a ha hb
    simp only [List.mem_singleton] at hb
    subst hb
    simp only [List.mem_map] at ha
    obtain ⟨kv, hkv, hfst⟩ := ha
    exact absurd hfst (Nat.ne_of_lt (h.2 kv hkv))
  · intro kv hkv
    simp only [AssetStore.new_asset, mapInsert_eq_append _ hget, List.mem_append,
      List.mem_singleton] at hkv
    rcases hkv with hkv | rfl
    · exact Nat.lt_succ_of_lt (h.2 kv hkv)
    · exact Nat.lt_succ_self _

theorem assetStore_wf_remove {s : AssetStore} (h : s.Wf) (id : Nat) :
    ((s.remove id).1).Wf := by
  constructor
  · exact h.1.sublist (List.Sublist.map _ (mapRemove_fst_sublist s.assets id))
  · intro kv hkv
    exact h.2 kv ((mapRemove_fst_sublist s.assets id).mem hkv)

/-! ## Claim theorems -/

/-- C1: on any well-formed `Data` state, when the source path has a
recognized extension but the byte copy fails, `add_asset_from_disk`
returns a copy-failed error carrying the underlying I/O cause, the file
store count and contents are exactly as before the call, `get` on the
provisionally allocated id (the pre-call `next_id`) returns nothing, and
the asset store and directories are untouched; the only trace of the call
is the skipped sequence number (`next_id` advanced by one). -/
theorem add_asset_from_disk_copy_failure_rolls_back
    (d : Data) (title file : String) (ext : KnownExtension) (e : String)
    (copy : String → String → Except String Unit)
    (hwf : d.files.Wf)
    (hext : KnownExtension.from_path file = some ext)
    (hcopy : ∀ src dst, copy src dst = Except.error e) :
    (d.add_asset_from_disk title file copy).1 = Except.error (AddError.copyFailed e) ∧
    ((d.add_asset_from_disk title file copy).2).files.count = d.files.count ∧
    ((d.add_asset_from_disk title file copy).2).files.files = d.files.files ∧
    ((d.add_asset_from_disk title file copy).2).files.get d.files.next_id = none ∧
    ((d.add_asset_from_disk title file copy).2).assets = d.assets ∧
    ((d.add_asset_from_disk title file copy).2).save_dir = d.save_dir ∧
    ((d.add_asset_from_disk title file copy).2).files_dir = d.files_dir ∧
    ((d.add_asset_from_disk title file copy).2).files.next_id = d.files.next_id + 1 := by
  have hget : mapGet d.files.files d.files.next_id = none := mapGet_eq_none_of_lt hwf.2
  have hcall : d.add_asset_from_disk title file copy =
      (Except.error (AddError.copyFailed e),
        { d with files := { files := d.files.files, next_id := d.files.next_id + 1 } }) := by
    unfold Data.add_asset_from_disk
    rw [hext]
    simp only [FileStore.new_file, FileStore.remove, hcopy,
      mapInsert_eq_append _ hget, mapRemove_append hget]
  rw [hcall]
  exact ⟨rfl, rfl, rfl, fileStore_get_next_id_eq_none hwf, rfl, rfl, rfl, rfl⟩

/-- C1 witness: a concrete failed copy on a fresh state. -/
theorem add_asset_from_disk_copy_failure_rolls_back_witness :
    ((Data.new "s" "f").add_asset_from_disk "t" "a.png"
        (fun _ _ => Except.error "io")).1 = Except.error (AddError.copyFailed "io") ∧
    ((Data.new "s" "f").add_asset_from_disk "t" "a.png"
        (fun _ _ => Except.error "io")).2.files.count = 0 ∧
    ((Data.new "s" "f").add_asset_from_disk "t" "a.png"
        (fun _ _ => Except.error "io")).2.assets = AssetStore.new := by
  have h := add_asset_from_disk_copy_failure_rolls_back (Data.new "s" "f") "t" "a.png"
    KnownExtension.png "io" (fun _ _ => Except.error "io") (by decide) (by decide)
    (fun _ _ => rfl)
  exact ⟨h.1, h.2.1, h.2.2.2.2.1⟩

/-- C2 (code-bug evaluation): `Data::new` initializes its `files_dir`
field from `save_dir` (`files_dir: PathBuf::from(save_dir)` in data.rs),
so the first import into `Data::new("save", "files")` copies the bytes to
`"save/0.png"` — inside the save directory, not the managed files
directory.  The discriminating copy function below succeeds only at
destination `"save/0.png"`, and the import nevertheless succeeds. -/
theorem data_new_misassigns_files_dir :
    (Data.new "save" "files").files_dir = "save" ∧
    (Data.new "save" "files").files_dir ≠ "files" ∧
    ((Data.new "save" "files").add_asset_from_disk "My Title" "a.png"
        (fun _ dst => if dst = "save/0.png" then Except.ok () else Except.error "elsewhere")).1
      = Except.ok 0 := by
  refine ⟨rfl, by decide, rfl⟩

/-- C3: when the source path's extension is not in the allow-list,
`add_asset_from_disk` fails with the unsupported-extension error and the
whole `Data` state — both stores with their contents, counts, and next-id
counters — is exactly as before the call. -/
theorem add_asset_from_disk_unsupported_extension_no_mutation
    (d : Data) (title file : String)
    (copy : String → String → Except String Unit)
    (h : KnownExtension.from_path file = none) :
    d.add_asset_from_disk title file copy =
      (Except.error AddError.unsupportedExtension, d) := by
  unfold Data.add_asset_from_disk
  rw [h]

/-- C3 witness: importing a `pdf` fails and changes nothing. -/
theorem add_asset_from_disk_unsupported_extension_no_mutation_witness :
    (Data.new "s" "f").add_asset_from_disk "t" "a.pdf" (fun _ _ => Except.ok ()) =
      (Except.error AddError.unsupportedExtension, Data.new "s" "f") :=
  add_asset_from_disk_unsupported_extension_no_mutation (Data.new "s" "f") "t" "a.pdf"
    (fun _ _ => Except.ok ()) (by decide)

/-- C5: extension classification is total (every string yields a defined
`some`-or-`none` result) and case-insensitive; classifying the paths
`"a.PNG"` and `"a.png"` yields `some png` while `"a"`, `"a.pdf"` and `""`
yield `none`. -/
theorem extension_classification_total_and_case_insensitive :
    (∀ s : String, KnownExtension.from_str s = some KnownExtension.png ∨
      KnownExtension.from_str s = none) ∧
    KnownExtension.from_path "a.PNG" = some KnownExtension.png ∧
    KnownExtension.from_path "a.png" = some KnownExtension.png ∧
    KnownExtension.from_path "a" = none ∧
    KnownExtension.from_path "a.pdf" = none ∧
    KnownExtension.from_path "" = none := by
  refine ⟨?_, by decide, by decide, by decide, by decide, by decide⟩
  intro s
  unfold KnownExtension.from_str
  by_cases h : toAsciiLowercase s = "png"
  · exact Or.inl (by rw [if_pos h])
  · exact Or.inr (by rw [if_neg h])

/-- C7: the storage filename is a pure function of (identifier,
extension): records agreeing on id and extension have identical
filenames, and for two `new_file` calls with arbitrary distinct titles
but the same extension the returned paths are both of the shape
`<decimal-id>.<ext>`, differing only in the decimal stem. -/
theorem file_name_pure_function_of_id_and_extension :
    (∀ f g : File, f.id = g.id → f.extension = g.extension →
      f.file_name = g.file_name) ∧
    (∀ (s : FileStore) (t1 t2 : String) (ext : KnownExtension),
      (s.new_file t1 ext).1.2 = Nat.repr s.next_id ++ "." ++ ext.to_str ∧
      ((s.new_file t1 ext).2.new_file t2 ext).1.2 =
        Nat.repr (s.next_id + 1) ++ "." ++ ext.to_str) := by
  constructor
  · intro f g hid hext
    simp [File.file_name, hid, hext]
  · intro s t1 t2 ext
    exact ⟨rfl, rfl⟩

/-- C7 witness: two records with equal id and extension but different
titles share the filename. -/
theorem file_name_pure_function_of_id_and_extension_witness :
    File.file_name ⟨0, "a", KnownExtension.png, []⟩ =
      File.file_name ⟨0, "b", KnownExtension.png, []⟩ :=
  file_name_pure_function_of_id_and_extension.1 _ _ rfl rfl

/-- C9: `new_file` followed by `get` on the returned identifier yields a
record carrying exactly the given title and extension, on every store
state. -/
theorem new_file_get_round_trip (s : FileStore) (title : String)
    (ext : KnownExtension) :
    (((s.new_file title ext).2).get (s.new_file title ext).1.1).map File.title
        = some title ∧
    (((s.new_file title ext).2).get (s.new_file title ext).1.1).map File.extension
        = some ext := by
  have h : ((s.new_file title ext).2).get (s.new_file title ext).1.1 =
      some { id := s.next_id, title := title, extension := ext, system_tags := [] } := by
    simp [FileStore.new_file, FileStore.get, mapGet_mapInsert_self]
  rw [h]
  exact ⟨rfl, rfl⟩

/-- C10: `new_image` on a path without a recognized image extension
returns `none` and leaves the store — records, count, and next-id
counter — exactly unchanged, so rejected paths never consume an
identifier. -/
theorem new_image_rejected_path_no_mutation (s : ImageStore) (path : String)
    (h : ImageStore.path_has_image_extension path = false) :
    s.new_image path = (none, s) := by
  simp [ImageStore.new_image, h]

/-- C10 witness: a `pdf` path is rejected without mutation. -/
theorem new_image_rejected_path_no_mutation_witness :
    ImageStore.new.new_image "a.pdf" = (none, ImageStore.new) :=
  new_image_rejected_path_no_mutation ImageStore.new "a.pdf" (by decide)

/-! Helper lemmas for the trace and counting claims. -/

theorem fileStore_runOps_ids_bounded_sorted (ops : List FileOp) :
    ∀ s : FileStore, (∀ i ∈ (s.runOps ops).2, s.next_id ≤ i) ∧
      List.Pairwise (· < ·) (s.runOps ops).2 := by
  induction ops with
  | nil =>
    intro s
    constructor
    · intro i hi
      simp [FileStore.runOps] at hi
    · simp [FileStore.runOps]
  | cons op rest ih =>
    intro s
    cases op with
    | new_file title ext =>
      have ihs := ih (s.new_file title ext).2
      have hnext : ((s.new_file title ext).2).next_id = s.next_id + 1 := rfl
      constructor
      · intro i hi
        simp only [FileStore.runOps, List.mem_cons] at hi
        rcases hi with rfl | hi
        · exact Nat.le_refl _
        · have hb := ihs.1 i hi
          rw [hnext] at hb
          omega
      · simp only [FileStore.runOps]
        refine List.Pairwise.cons ?_ ihs.2
        intro i hi
        have hb := ihs.1 i hi
        rw [hnext] at hb
        show s.next_id < i
        omega
    | remove id =>
      have ihs := ih (s.remove id).1
      have hnext : ((s.remove id).1).next_id = s.next_id := rfl
      constructor
      · intro i hi
        simp only [FileStore.runOps] at hi
        have hb := ihs.1 i hi
        rw [hnext] at hb
        exact hb
      · simp only [FileStore.runOps]
        exact ihs.2

theorem assetStore_runOps_ids_bounded_sorted (ops : List AssetOp) :
    ∀ s : AssetStore, (∀ i ∈ (s.runOps ops).2, s.next_id ≤ i) ∧
      List.Pairwise (· < ·) (s.runOps ops).2 := by
  induction ops with
  | nil =>
    intro s
    constructor
    · intro i hi
      simp [AssetStore.runOps] at hi
    · simp [AssetStore.runOps]
  | cons op rest ih =>
    intro s
    cases op with
    | new_asset title file =>
      have ihs := ih (s.new_asset title file).2
      have hnext : ((s.new_asset title file).2).next_id = s.next_id + 1 := rfl
      constructor
      · intro i hi
        simp only [AssetStore.runOps, List.mem_cons] at hi
        rcases hi with rfl | hi
        · exact Nat.le_refl _
        · have hb := ihs.1 i hi
          rw [hnext] at hb
          omega
      · simp only [AssetStore.runOps]
        refine List.Pairwise.cons ?_ ihs.2
        intro i hi
        have hb := ihs.1 i hi
        rw [hnext] at hb
        show s.next_id < i
        omega
    | remove id =>
      have ihs := ih (s.remove id).1
      have hnext : ((s.remove id).1).next_id = s.next_id := rfl
      constructor
      · intro i hi
        simp only [AssetStore.runOps] at hi
        have hb := ihs.1 i hi
        rw [hnext] at hb
        exact hb
      · simp only [AssetStore.runOps]
        exact ihs.2

/-- C4: over every sequence of `new_file`/`new_asset`/`remove` operations
run from a fresh store, the identifiers returned by `new_file` are
pairwise distinct, and so are those returned by `new_asset`; since the
collected list covers the whole trace, an identifier is never handed out
again after its record was removed. -/
theorem ids_pairwise_distinct_never_reused
    (fileOps : List FileOp) (assetOps : List AssetOp) :
    ((FileStore.new.runOps fileOps).2).Nodup ∧
    ((AssetStore.new.runOps assetOps).2).Nodup := by
  constructor
  · exact List.Pairwise.imp Nat.ne_of_lt
      (fileStore_runOps_ids_bounded_sorted fileOps FileStore.new).2
  · exact List.Pairwise.imp Nat.ne_of_lt
      (assetStore_runOps_ids_bounded_sorted assetOps AssetStore.new).2

theorem fileStore_addAll_count_wf (l : List (String × KnownExtension)) :
    ∀ s : FileStore, s.Wf →
      (s.addAll l).count = s.count + l.length ∧ (s.addAll l).Wf := by
  induction l with
  | nil =>
    intro s hs
    exact ⟨by simp [FileStore.addAll], hs⟩
  | cons te rest ih =>
    intro s hs
    obtain ⟨title, ext⟩ := te
    have hget : mapGet s.files s.next_id = none := mapGet_eq_none_of_lt hs.2
    have hwf2 := fileStore_wf_new_file hs title ext
    have hcount : ((s.new_file title ext).2).count = s.count + 1 := by
      simp [FileStore.new_file, FileStore.count, mapInsert_eq_append _ hget]
    obtain ⟨h1, h2⟩ := ih (s.new_file title ext).2 hwf2
    refine ⟨?_, h2⟩
    show ((s.new_file title ext).2.addAll rest).count = s.count + (rest.length + 1)
    rw [h1, hcount]
    omega

theorem assetStore_addAll_count_wf (l : List (String × Nat)) :
    ∀ s : AssetStore, s.Wf →
      (s.addAll l).count = s.count + l.length ∧ (s.addAll l).Wf := by
  induction l with
  | nil =>
    intro s hs
    exact ⟨by simp [AssetStore.addAll], hs⟩
  | cons tf rest ih =>
    intro s hs
    obtain ⟨title, file⟩ := tf
    have hget : mapGet s.assets s.next_id = none := mapGet_eq_none_of_lt hs.2
    have hwf2 := assetStore_wf_new_asset hs title file
    have hcount : ((s.new_asset title file).2).count = s.count + 1 := by
      simp [AssetStore.new_asset, AssetStore.count, mapInsert_eq_append _ hget]
    obtain ⟨h1, h2⟩ := ih (s.new_asset title file).2 hwf2
    refine ⟨?_, h2⟩
    show ((s.new_asset title file).2.addAll rest).count = s.count + (rest.length + 1)
    rw [h1, hcount]
    omega

/-- C8: in each store, `count` after N creations into a fresh store is N;
and removing a present identifier decreases `count` by exactly one and
makes a subsequent `get` on that identifier return nothing. -/
theorem store_count_properties :
    (∀ l : List (String × KnownExtension), (FileStore.new.addAll l).count = l.length) ∧
    (∀ l : List (String × Nat), (AssetStore.new.addAll l).count = l.length) ∧
    (∀ (s : FileStore) (id : Nat) (f : File), s.Wf → s.get id = some f →
      ((s.remove id).1).count + 1 = s.count ∧ ((s.remove id).1).get id = none) ∧
    (∀ (s : AssetStore) (id : Nat) (a : Asset), s.Wf → s.get id = some a →
      ((s.remove id).1).count + 1 = s.count ∧ ((s.remove id).1).get id = none) := by
  refine ⟨?_, ?_, ?_, ?_⟩
  · intro l
    have h := fileStore_addAll_count_wf l FileStore.new fileStore_wf_new
    simpa [FileStore.count, FileStore.new] using h.1
  · intro l
    have h := assetStore_addAll_count_wf l AssetStore.new assetStore_wf_new
    simpa [AssetStore.count, AssetStore.new] using h.1
  · intro s id f hwf hget
    exact ⟨mapRemove_length_of_mem hget, mapGet_mapRemove_self id hwf.1⟩
  · intro s id a hwf hget
    exact ⟨mapRemove_length_of_mem hget, mapGet_mapRemove_self id hwf.1⟩

/-- C8 witness: one creation then a removal on the file store. -/
theorem store_count_properties_witness :
    (((FileStore.new.new_file "t" KnownExtension.png).2.remove 0).1).count + 1 =
      ((FileStore.new.new_file "t" KnownExtension.png).2).count ∧
    (((FileStore.new.new_file "t" KnownExtension.png).2.remove 0).1).get 0 = none :=
  store_count_properties.2.2.1 (FileStore.new.new_file "t" KnownExtension.png).2 0
    ⟨0, "t", KnownExtension.png, []⟩ (by decide) rfl

/-! Helper lemmas about the path-splitting functions, for the extension
extraction claim. -/

theorem splitAtLastDot_of_not_mem {l : List Char} (h : '.' ∉ l) :
    splitAtLastDot l = none := by
  induction l with
  | nil => rfl
  | cons c rest ih =>
    simp only [List.mem_cons, not_or] at h
    have hc : c ≠ '.' := fun hc => h.1 hc.symm
    simp only [splitAtLastDot, ih h.2, if_neg hc]

theorem splitAtLastDot_append {before after : List Char} (h : '.' ∉ after) :
    splitAtLastDot (before ++ '.' :: after) = some (before, after) := by
  induction before with
  | nil =>
    simp [splitAtLastDot, splitAtLastDot_of_not_mem h]
  | cons c rest ih =>
    simp only [List.cons_append, splitAtLastDot, List.append_eq, ih]

theorem splitSlash_of_not_mem {l : List Char} (h : '/' ∉ l) :
    splitSlash l = [l] := by
  induction l with
  | nil => rfl
  | cons c rest ih =>
    simp only [List.mem_cons, not_or] at h
    have hc : c ≠ '/' := fun hc => h.1 hc.symm
    simp only [splitSlash, ih h.2, if_neg hc]

theorem fileNameChars_single {l : List Char} (hslash : '/' ∉ l)
    (hne : l ≠ []) (hdot1 : l ≠ ['.']) (hdot2 : l ≠ ['.', '.']) :
    fileNameChars (String.mk l) = some l := by
  have htl : (String.mk l).toList = l := rfl
  unfold fileNameChars
  rw [htl, splitSlash_of_not_mem hslash]
  rw [List.filter_cons, if_pos (by simp [hne, hdot1])]
  simp [hdot2]

theorem extensionOf_append {before after : List Char} (hb : before ≠ [])
    (ha : after ≠ []) (hdot : '.' ∉ after) :
    extensionOf (before ++ '.' :: after) = some after := by
  have hne2 : before ++ '.' :: after ≠ ['.', '.'] := by
    intro h
    have hlen := congrArg List.length h
    simp only [List.length_append, List.length_cons, List.length_nil] at hlen
    have hbl : 0 < before.length := List.length_pos.mpr hb
    have hal : 0 < after.length := List.length_pos.mpr ha
    omega
  unfold extensionOf
  rw [if_neg hne2, splitAtLastDot_append hdot]
  cases before with
  | nil => exact absurd rfl hb
  | cons c cs => rfl

theorem rustExtension_append {before after : List Char}
    (hb : before ≠ []) (ha : after ≠ []) (hdot : '.' ∉ after)
    (hsb : '/' ∉ before) (hsa : '/' ∉ after) :
    rustExtension (String.mk (before ++ '.' :: after)) = some (String.mk after) := by
  have hbl : 0 < before.length := List.length_pos.mpr hb
  have hal : 0 < after.length := List.length_pos.mpr ha
  have hslash : '/' ∉ before ++ '.' :: after := by
    simp only [List.mem_append, List.mem_cons, not_or]
    exact ⟨hsb, by decide, hsa⟩
  have hne : before ++ '.' :: after ≠ [] := by
    intro h
    have hlen := congrArg List.length h
    simp only [List.length_append, List.length_cons, List.length_nil] at hlen
    omega
  have hd1 : before ++ '.' :: after ≠ ['.'] := by
    intro h
    have hlen := congrArg List.length h
    simp only [List.length_append, List.length_cons, List.length_nil] at hlen
    omega
  have hd2 : before ++ '.' :: after ≠ ['.', '.'] := by
    intro h
    have hlen := congrArg List.length h
    simp only [List.length_append, List.length_cons, List.length_nil] at hlen
    omega
  unfold rustExtension
  rw [fileNameChars_single hslash hne hd1 hd2]
  simp [extensionOf_append hb ha hdot]

/-- C6 counterexample: the claim says a path whose final component is
`".png"` is classified as the known Png extension, but `Path::extension`
treats a name whose only dot is the leading one as having no extension,
so `from_path ".png"` is `none`. -/
theorem from_path_dotfile_counterexample :
    KnownExtension.from_path ".png" ≠ some KnownExtension.png ∧
    KnownExtension.from_path ".png" = none := by
  constructor
  · decide
  · decide

theorem fileNameChars_ne_dotdot {p : String} {c : List Char}
    (h : fileNameChars p = some c) : c ≠ ['.', '.'] := by
  unfold fileNameChars at h
  dsimp only at h
  split at h
  · exact Option.noConfusion h
  · split at h
    · exact Option.noConfusion h
    · rename_i hcc
      injection h with h2
      subst h2
      exact hcc

/-- C6 (amended): for every path — with any number of components — whose
final component (as extracted by `Path::file_name`) splits as
`<stem>.<ext>` with a nonempty stem and a dot-free extension part,
`from_path` classifies exactly the text after the final dot (lower-cased
by `from_str`) against the allow-list; a final component `".png"` — a
lone leading dot — has no extension and is classified as unrecognized. -/
theorem from_path_classifies_text_after_last_dot :
    (∀ (p : String) (before after : List Char),
      fileNameChars p = some (before ++ '.' :: after) → before ≠ [] → '.' ∉ after →
      KnownExtension.from_path p = KnownExtension.from_str (String.mk after)) ∧
    KnownExtension.from_path ".png" = none := by
  constructor
  · intro p before after hfn hb hdot
    have hne2 : before ++ '.' :: after ≠ ['.', '.'] := fileNameChars_ne_dotdot hfn
    have hext : extensionOf (before ++ '.' :: after) = some after := by
      unfold extensionOf
      rw [if_neg hne2, splitAtLastDot_append hdot]
      cases before with
      | nil => exact absurd rfl hb
      | cons c cs => rfl
    have hre : rustExtension p = some (String.mk after) := by
      unfold rustExtension
      rw [hfn]
      simp [hext]
    unfold KnownExtension.from_path
    rw [hre]
    rfl
  · decide

/-- C6 witness: the general part applied to the multi-component path
`"dir/a.PNG"`, whose final component is `"a" ++ "." ++ "PNG"`. -/
theorem from_path_classifies_text_after_last_dot_witness :
    KnownExtension.from_path "dir/a.PNG" =
      KnownExtension.from_str (String.mk ['P', 'N', 'G']) :=
  from_path_classifies_text_after_last_dot.1 "dir/a.PNG" ['a'] ['P', 'N', 'G']
    (by decide) (by decide) (by decide)

end AssetKeeper
